import Mathlib

/-!
Verification of the folded-stack → Grafana nested-set aggregation engine
(`src/grafana/folded_to_grafana.py`).

Lines and frame names are modelled as `List Char`; Python's `int`/`float`
sample counts are modelled as `ℚ` (the special float values `inf`/`nan`
and digit-group underscores are outside the model).  The mutable trie is
modelled as a pure inductive tree; Python's insertion-ordered `dict` of
children becomes a list in insertion order.
-/

/-- Python `str.strip()` restricted to ASCII whitespace. -/
def pyStrip (l : List Char) : List Char :=
  ((l.dropWhile Char.isWhitespace).reverse.dropWhile Char.isWhitespace).reverse

/-- Split a list at the first occurrence of `c`: `some (before, after)`, or
`none` when `c` does not occur. -/
def breakAtFirst (c : Char) : List Char → Option (List Char × List Char)
  | [] => none
  | x :: xs =>
    if x = c then some ([], xs)
    else (breakAtFirst c xs).map (fun p => (x :: p.1, p.2))

/-- Python `line.rsplit(' ', 1)` in the case it yields two parts: split at the
last space.  `none` exactly when the line contains no space. -/
def rsplitSpace (l : List Char) : Option (List Char × List Char) :=
  (breakAtFirst ' ' l.reverse).map (fun p => (p.2.reverse, p.1.reverse))

/-- Numeric value of a digit string (most significant first). -/
def digitsVal (l : List Char) : ℕ :=
  l.foldl (fun n c => 10 * n + (c.toNat - '0'.toNat)) 0

/-- Strip one optional leading sign; `true` means negative. -/
def parseSign : List Char → Bool × List Char
  | '-' :: rest => (true, rest)
  | '+' :: rest => (false, rest)
  | l => (false, l)

/-- Python `int(s)`: optional surrounding whitespace, optional sign, a
non-empty run of decimal digits. -/
def parseInt (l : List Char) : Option ℤ :=
  let s := pyStrip l
  let sd := parseSign s
  if sd.2 ≠ [] ∧ sd.2.all Char.isDigit then
    some (if sd.1 then -(digitsVal sd.2 : ℤ) else (digitsVal sd.2 : ℤ))
  else none

/-- Exponent part of a float literal after the `e`/`E`: optional sign and a
non-empty run of digits, consuming the rest of the string. -/
def parseExpDigits (l : List Char) : Option ℤ :=
  let sd := parseSign l
  if sd.2 ≠ [] ∧ sd.2.all Char.isDigit then
    some (if sd.1 then -(digitsVal sd.2 : ℤ) else (digitsVal sd.2 : ℤ))
  else none

/-- Optional exponent suffix of a float literal. -/
def parseExp : List Char → Option ℤ
  | [] => some 0
  | 'e' :: rest => parseExpDigits rest
  | 'E' :: rest => parseExpDigits rest
  | _ => none

/-- Rational value of a parsed float: sign, integer digits, fraction digits,
exponent. -/
def floatVal (neg : Bool) (ip fp : List Char) (e : ℤ) : ℚ :=
  let m : ℚ := (digitsVal ip : ℚ) + (digitsVal fp : ℚ) / (10 : ℚ) ^ fp.length
  let m' : ℚ := if neg then -m else m
  if 0 ≤ e then m' * (10 : ℚ) ^ e.toNat else m' / (10 : ℚ) ^ (-e).toNat

/-- Python `float(s)` on ordinary decimal literals: optional sign, digits with
an optional decimal point (at least one digit overall), optional exponent. -/
def parseFloat (l : List Char) : Option ℚ :=
  let s := pyStrip l
  let sd := parseSign s
  let ip := sd.2.takeWhile Char.isDigit
  match sd.2.dropWhile Char.isDigit with
  | '.' :: rest2 =>
    let fp := rest2.takeWhile Char.isDigit
    if ip = [] ∧ fp = [] then none
    else (parseExp (rest2.dropWhile Char.isDigit)).map (floatVal sd.1 ip fp)
  | rest1 =>
    if ip = [] then none
    else (parseExp rest1).map (floatVal sd.1 ip [])

/-- The count parse of the source: `int(count_str)` first, falling back to
`float(count_str)`. -/
def parseCount (l : List Char) : Option ℚ :=
  match parseInt l with
  | some i => some (i : ℚ)
  | none => parseFloat l

/-- The TrieNode class of the source: a frame name, self/total sample counts and the
children in insertion order (Python `dict` preserves insertion order). -/
inductive TrieNode where
  | mk (name : List Char) (self_value : ℚ) (total_value : ℚ) (children : List TrieNode)

def TrieNode.name : TrieNode → List Char
  | .mk n _ _ _ => n

def TrieNode.self_value : TrieNode → ℚ
  | .mk _ s _ _ => s

def TrieNode.total_value : TrieNode → ℚ
  | .mk _ _ t _ => t

def TrieNode.children : TrieNode → List TrieNode
  | .mk _ _ _ c => c

/-- Python `node.children[frame]` with on-demand creation: find the child named `f`
and apply `upd` to it; a missing child is created as `TrieNode(frame)` and
appended at the end, matching dict insertion order. -/
def updateChild (f : List Char) (upd : TrieNode → TrieNode) : List TrieNode → List TrieNode
  | [] => [upd (TrieNode.mk f 0 0 [])]
  | t :: ts => if t.name = f then upd t :: ts else t :: updateChild f upd ts

/-- The navigate/create loop of `build_trie`: walk the stack of frames from the
given node, creating children on demand, and add `c` to the final node's
`self_value`. -/
def insertPath : List (List Char) → ℚ → TrieNode → TrieNode
  | [], c, TrieNode.mk n sv tv cs => TrieNode.mk n (sv + c) tv cs
  | f :: fs, c, TrieNode.mk n sv tv cs =>
      TrieNode.mk n sv tv (updateChild f (insertPath fs c) cs)

/-- Python `str.split(sep)` for a one-character separator (empty segments are
kept, as in Python). -/
def splitSep (sep : Char) : List Char → List (List Char)
  | [] => [[]]
  | c :: cs =>
    if c = sep then [] :: splitSep sep cs
    else
      match splitSep sep cs with
      | [] => [[c]]
      | g :: gs => (c :: g) :: gs

/-- One iteration of `build_trie`'s loop, acting on the pair
(tree, current separator).  Note that the `separator` variable of the source
is threaded through the fold: line 57 of the source reassigns it, and the
assignment persists for later lines. -/
def build_trie_step (st : TrieNode × Char) (rawLine : List Char) : TrieNode × Char :=
  let line := pyStrip rawLine
  if line = [] then st
  else if line.head? = some '#' then st
  else
    match rsplitSpace line with
    | none => st
    | some (stack_str, count_str) =>
      match parseCount count_str with
      | none => st
      | some count =>
        let separator := if '/' ∈ stack_str ∧ ';' ∉ stack_str then '/' else st.2
        let stack := (splitSep separator stack_str).filter (· ≠ [])
        (insertPath stack count st.1, separator)

/-- The synthetic root `TrieNode("total")`. -/
def rootInit : TrieNode := TrieNode.mk "total".toList 0 0 []

/-- The function `build_trie(folded_lines, separator)` of the source. -/
def build_trie (folded_lines : List (List Char)) (separator : Char) : TrieNode :=
  (folded_lines.foldl build_trie_step (rootInit, separator)).1

/-- The function `calculate_totals`: recomputes every node's `total_value` as its
`self_value` plus the children's totals (children first). -/
def calculate_totals : TrieNode → TrieNode
  | TrieNode.mk n sv _ cs =>
    let cs' := cs.attach.map (fun c => calculate_totals c.1)
    TrieNode.mk n sv (sv + (cs'.map TrieNode.total_value).sum) cs'
termination_by t => sizeOf t
decreasing_by
  have h := List.sizeOf_lt_of_mem c.2
  simp only [TrieNode.mk.sizeOf_spec]
  omega

/-- Stable insertion of `x` into a list ordered by descending `total_value`:
`x` passes over exactly the elements with strictly greater total, so among
equal totals an already-present (earlier-created) element stays first. -/
def insertByTotal (x : TrieNode) : List TrieNode → List TrieNode
  | [] => [x]
  | y :: ys =>
    if x.total_value < y.total_value then y :: insertByTotal x ys else x :: y :: ys

/-- Python `sorted(node.children.values(), key=total_value, reverse=True)`:
a stable descending sort of the children. -/
def sortByTotalDesc : List TrieNode → List TrieNode
  | [] => []
  | x :: xs => insertByTotal x (sortByTotalDesc xs)

theorem mem_insertByTotal {y x : TrieNode} {l : List TrieNode}
    (h : y ∈ insertByTotal x l) : y = x ∨ y ∈ l := by
  induction l with
  | nil => simpa [insertByTotal] using h
  | cons z zs ih =>
    by_cases hlt : x.total_value < z.total_value
    · simp only [insertByTotal, if_pos hlt, List.mem_cons] at h
      rcases h with h | h
      · exact Or.inr (by simp [h])
      · rcases ih h with h | h
        · exact Or.inl h
        · exact Or.inr (List.mem_cons_of_mem _ h)
    · simp only [insertByTotal, if_neg hlt, List.mem_cons] at h
      rcases h with h | h | h
      · exact Or.inl h
      · exact Or.inr (by simp [h])
      · exact Or.inr (List.mem_cons_of_mem _ h)

theorem mem_sortByTotalDesc {y : TrieNode} {l : List TrieNode}
    (h : y ∈ sortByTotalDesc l) : y ∈ l := by
  induction l with
  | nil => simpa [sortByTotalDesc] using h
  | cons z zs ih =>
    simp only [sortByTotalDesc] at h
    rcases mem_insertByTotal h with h | h
    · simp [h]
    · exact List.mem_cons_of_mem _ (ih h)

/-- An output row of the nested-set model. -/
structure Row where
  level : ℕ
  label : List Char
  value : ℚ
  self : ℚ
deriving DecidableEq

/-- The function `trie_to_nested_set`: pre-order traversal emitting one row per node, the
children visited in stable descending-total order.  The Python version appends
into a shared `result` list; this is modelled by returning the rows the call
appends (the caller concatenates). -/
def trie_to_nested_set (t : TrieNode) (level : ℕ) : List Row :=
  match t with
  | TrieNode.mk n sv tv cs =>
    ⟨level, n, tv, sv⟩ ::
      (sortByTotalDesc cs).attach.flatMap (fun c => trie_to_nested_set c.1 (level + 1))
termination_by sizeOf t
decreasing_by
  have h := List.sizeOf_lt_of_mem (mem_sortByTotalDesc c.2)
  simp only [TrieNode.mk.sizeOf_spec]
  omega

/-- The function `convert_folded_to_grafana`: the full pipeline. -/
def convert_folded_to_grafana (input_lines : List (List Char)) (separator : Char) : List Row :=
  trie_to_nested_set (calculate_totals (build_trie input_lines separator)) 0

/-! ## Specification helpers and unfolding lemmas -/

/-- Sum of all `self_value`s in a tree. -/
def selfSum : TrieNode → ℚ
  | TrieNode.mk _ sv _ cs => sv + (cs.attach.map (fun c => selfSum c.1)).sum
termination_by t => sizeOf t
decreasing_by
  have h := List.sizeOf_lt_of_mem c.2
  simp only [TrieNode.mk.sizeOf_spec]
  omega

/-- The conservation invariant, checked recursively over the whole tree:
every node's `total_value` equals its `self_value` plus the sum of the
children's `total_value`s. -/
def conservedB : TrieNode → Bool
  | TrieNode.mk _ sv tv cs =>
    decide (tv = sv + (cs.map TrieNode.total_value).sum) &&
      cs.attach.all (fun c => conservedB c.1)
termination_by t => sizeOf t
decreasing_by
  have h := List.sizeOf_lt_of_mem c.2
  simp only [TrieNode.mk.sizeOf_spec]
  omega

/-- Strong induction over the trie: to prove `P` everywhere it is enough to
prove it at each node assuming it on the children. -/
theorem TrieNode.strong_induction {P : TrieNode → Prop}
    (h : ∀ n sv tv cs, (∀ c ∈ cs, P c) → P (TrieNode.mk n sv tv cs)) :
    ∀ t, P t
  | TrieNode.mk n sv tv cs =>
    h n sv tv cs (fun c hc => TrieNode.strong_induction h c)
termination_by t => sizeOf t
decreasing_by
  have h2 := List.sizeOf_lt_of_mem hc
  simp only [TrieNode.mk.sizeOf_spec]
  omega

theorem calculate_totals_eq (n : List Char) (sv tv : ℚ) (cs : List TrieNode) :
    calculate_totals (TrieNode.mk n sv tv cs) =
      TrieNode.mk n sv (sv + ((cs.map calculate_totals).map TrieNode.total_value).sum)
        (cs.map calculate_totals) := by
  rw [calculate_totals]
  simp [List.attach_map_val]

theorem selfSum_eq (n : List Char) (sv tv : ℚ) (cs : List TrieNode) :
    selfSum (TrieNode.mk n sv tv cs) = sv + (cs.map selfSum).sum := by
  rw [selfSum]
  simp [List.attach_map_val]

theorem conservedB_eq (n : List Char) (sv tv : ℚ) (cs : List TrieNode) :
    conservedB (TrieNode.mk n sv tv cs) = true ↔
      tv = sv + (cs.map TrieNode.total_value).sum ∧ ∀ c ∈ cs, conservedB c = true := by
  rw [conservedB]
  simp [List.all_eq_true]

theorem attach_flatMap_eq {α β : Type} (l : List α) (f : α → List β) :
    l.attach.flatMap (fun c => f c.1) = l.flatMap f := by
  rw [List.flatMap_def, List.flatMap_def, List.attach_map_val l f]

theorem trie_to_nested_set_eq (n : List Char) (sv tv : ℚ) (cs : List TrieNode) (level : ℕ) :
    trie_to_nested_set (TrieNode.mk n sv tv cs) level =
      ⟨level, n, tv, sv⟩ ::
        (sortByTotalDesc cs).flatMap (fun c => trie_to_nested_set c (level + 1)) := by
  rw [trie_to_nested_set]
  simp [attach_flatMap_eq]

/-! ## Characterising one loop iteration -/

/-- The validity test and parse of one raw line, mirroring the skip conditions
of `build_trie`'s loop body: the stack part and parsed count of a non-skipped
line, `none` when the line is skipped. -/
def parseValid (rawLine : List Char) : Option (List Char × ℚ) :=
  let line := pyStrip rawLine
  if line = [] then none
  else if line.head? = some '#' then none
  else
    match rsplitSpace line with
    | none => none
    | some (stack_str, count_str) =>
      match parseCount count_str with
      | none => none
      | some count => some (stack_str, count)

/-- The count a raw line contributes (0 for a skipped line). -/
def countOf (rawLine : List Char) : ℚ :=
  match parseValid rawLine with
  | some p => p.2
  | none => 0

/-- The separator a stack part selects: `'/'` when it contains `'/'` and no
`';'`, otherwise the current separator. -/
def effSep (stack_str : List Char) (sep : Char) : Char :=
  if '/' ∈ stack_str ∧ ';' ∉ stack_str then '/' else sep

/-- How one raw line updates the threaded separator variable: only a
successfully parsed line can change it. -/
def sepUpd (sep : Char) (rawLine : List Char) : Char :=
  match parseValid rawLine with
  | some p => effSep p.1 sep
  | none => sep

/-- The threaded separator variable after processing a list of lines. -/
def sepAfter (lines : List (List Char)) (sep : Char) : Char :=
  lines.foldl sepUpd sep

/-- The frames of a stack part under a separator (empty segments dropped). -/
def framesOf (sep : Char) (stack_str : List Char) : List (List Char) :=
  (splitSep sep stack_str).filter (· ≠ [])

theorem build_trie_step_eq (t : TrieNode) (s : Char) (rawLine : List Char) :
    build_trie_step (t, s) rawLine =
      match parseValid rawLine with
      | none => (t, s)
      | some (sp, c) => (insertPath (framesOf (effSep sp s) sp) c t, effSep sp s) := by
  unfold build_trie_step parseValid framesOf effSep
  by_cases h1 : pyStrip rawLine = []
  · simp [h1]
  · by_cases h2 : (pyStrip rawLine).head? = some '#'
    · simp [h1, h2]
    · cases hr : rsplitSpace (pyStrip rawLine) with
      | none => simp [h1, h2, hr]
      | some p =>
        obtain ⟨sp, cp⟩ := p
        cases hc : parseCount cp with
        | none => simp [h1, h2, hr, hc]
        | some c => simp [h1, h2, hr, hc]

theorem build_trie_step_skip {rawLine : List Char} (h : parseValid rawLine = none)
    (t : TrieNode) (s : Char) : build_trie_step (t, s) rawLine = (t, s) := by
  rw [build_trie_step_eq, h]

theorem build_trie_step_insert {rawLine sp : List Char} {c : ℚ}
    (h : parseValid rawLine = some (sp, c)) (t : TrieNode) (s : Char) :
    build_trie_step (t, s) rawLine =
      (insertPath (framesOf (effSep sp s) sp) c t, effSep sp s) := by
  rw [build_trie_step_eq, h]

theorem build_trie_step_sep (t : TrieNode) (s : Char) (rawLine : List Char) :
    build_trie_step (t, s) rawLine = ((build_trie_step (t, s) rawLine).1, sepUpd s rawLine) := by
  cases h : parseValid rawLine with
  | none => rw [build_trie_step_skip h, sepUpd, h]
  | some p =>
    obtain ⟨sp, c⟩ := p
    rw [build_trie_step_insert h, sepUpd, h]

/-- The separator component of the fold is determined by the line contents
alone: it equals `sepAfter`. -/
theorem foldl_step_sep (lines : List (List Char)) :
    ∀ (t : TrieNode) (s : Char),
      lines.foldl build_trie_step (t, s) =
        ((lines.foldl build_trie_step (t, s)).1, sepAfter lines s) := by
  induction lines with
  | nil => intro t s; simp [sepAfter]
  | cons l ls ih =>
    intro t s
    rw [List.foldl_cons, build_trie_step_sep]
    rw [ih ((build_trie_step (t, s) l).1) (sepUpd s l)]
    rfl

/-! ## Conservation (C2) and root completeness (C3) machinery -/

theorem conservedB_calculate_totals : ∀ t, conservedB (calculate_totals t) = true := by
  apply TrieNode.strong_induction
  intro n sv tv cs ih
  rw [calculate_totals_eq, conservedB_eq]
  refine ⟨rfl, ?_⟩
  intro c hc
  rw [List.mem_map] at hc
  obtain ⟨c0, hc0, rfl⟩ := hc
  exact ih c0 hc0

theorem total_value_calculate_totals : ∀ t, (calculate_totals t).total_value = selfSum t := by
  apply TrieNode.strong_induction
  intro n sv tv cs ih
  rw [calculate_totals_eq, selfSum_eq]
  simp only [TrieNode.total_value, List.map_map]
  have h2 : List.map (TrieNode.total_value ∘ calculate_totals) cs = List.map selfSum cs := by
    apply List.map_congr_left
    intro c hc
    simp only [Function.comp_apply]
    exact ih c hc
  rw [h2]

theorem selfSum_updateChild (f : List Char) (upd : TrieNode → TrieNode) (c : ℚ)
    (hupd : ∀ t, selfSum (upd t) = selfSum t + c) :
    ∀ cs : List TrieNode,
      ((updateChild f upd cs).map selfSum).sum = (cs.map selfSum).sum + c := by
  intro cs
  induction cs with
  | nil => simp [updateChild, hupd, selfSum_eq]
  | cons t ts ih =>
    by_cases h : t.name = f
    · simp only [updateChild, if_pos h, List.map_cons, List.sum_cons, hupd]
      ring
    · simp only [updateChild, if_neg h, List.map_cons, List.sum_cons, ih]
      ring

theorem selfSum_insertPath : ∀ (fs : List (List Char)) (c : ℚ) (t : TrieNode),
    selfSum (insertPath fs c t) = selfSum t + c := by
  intro fs
  induction fs with
  | nil =>
    intro c t
    obtain ⟨n, sv, tv, cs⟩ := t
    simp only [insertPath, selfSum_eq]
    ring
  | cons f fs ih =>
    intro c t
    obtain ⟨n, sv, tv, cs⟩ := t
    simp only [insertPath, selfSum_eq]
    rw [selfSum_updateChild f (insertPath fs c) c (fun t => ih c t) cs]
    ring

theorem selfSum_foldl (lines : List (List Char)) :
    ∀ (t : TrieNode) (s : Char),
      selfSum ((lines.foldl build_trie_step (t, s)).1) =
        selfSum t + (lines.map countOf).sum := by
  induction lines with
  | nil => intro t s; simp
  | cons l ls ih =>
    intro t s
    rw [List.foldl_cons]
    cases h : parseValid l with
    | none =>
      rw [build_trie_step_skip h, ih]
      simp [countOf, h]
    | some p =>
      obtain ⟨sp, c⟩ := p
      rw [build_trie_step_insert h, ih, selfSum_insertPath]
      simp only [List.map_cons, List.sum_cons, countOf, h]
      ring

theorem selfSum_rootInit : selfSum rootInit = 0 := by
  simp [rootInit, selfSum_eq]

theorem root_total_eq_sum (lines : List (List Char)) (sep : Char) :
    (calculate_totals (build_trie lines sep)).total_value = (lines.map countOf).sum := by
  rw [total_value_calculate_totals, build_trie, selfSum_foldl, selfSum_rootInit, zero_add]

/-! ## Sorting lemmas (sibling order) -/

theorem pairwise_insertByTotal {x : TrieNode} {l : List TrieNode}
    (h : l.Pairwise (fun a b => b.total_value ≤ a.total_value)) :
    (insertByTotal x l).Pairwise (fun a b => b.total_value ≤ a.total_value) := by
  induction l with
  | nil => simp [insertByTotal]
  | cons y ys ih =>
    rw [List.pairwise_cons] at h
    obtain ⟨hy, hys⟩ := h
    by_cases hlt : x.total_value < y.total_value
    · rw [insertByTotal, if_pos hlt, List.pairwise_cons]
      constructor
      · intro z hz
        rcases mem_insertByTotal hz with rfl | hz
        · exact le_of_lt hlt
        · exact hy z hz
      · exact ih hys
    · rw [insertByTotal, if_neg hlt, List.pairwise_cons]
      constructor
      · intro z hz
        rcases List.mem_cons.mp hz with rfl | hz
        · exact not_lt.mp hlt
        · exact le_trans (hy z hz) (not_lt.mp hlt)
      · exact List.pairwise_cons.mpr ⟨hy, hys⟩

theorem pairwise_sortByTotalDesc (l : List TrieNode) :
    (sortByTotalDesc l).Pairwise (fun a b => b.total_value ≤ a.total_value) := by
  induction l with
  | nil => simp [sortByTotalDesc]
  | cons x xs ih => exact pairwise_insertByTotal ih

theorem filter_insertByTotal (x : TrieNode) (q : ℚ) (l : List TrieNode) :
    (insertByTotal x l).filter (fun y => y.total_value = q) =
      if x.total_value = q then x :: l.filter (fun y => y.total_value = q)
      else l.filter (fun y => y.total_value = q) := by
  induction l with
  | nil =>
    by_cases hxq : x.total_value = q <;> simp [insertByTotal, hxq]
  | cons y ys ih =>
    by_cases hlt : x.total_value < y.total_value
    · rw [insertByTotal, if_pos hlt]
      by_cases hyq : y.total_value = q
      · have hxq : x.total_value ≠ q := by
          rw [← hyq]
          exact ne_of_lt hlt
        simp [List.filter_cons, hyq, hxq, ih]
      · simp [List.filter_cons, hyq, ih]
    · rw [insertByTotal, if_neg hlt]
      by_cases hxq : x.total_value = q <;>
        by_cases hyq : y.total_value = q <;>
          simp [List.filter_cons, hxq, hyq]

/-- Stability: sorting does not disturb the relative order of equal-total
children — for every total value `q`, the sublist of children with that total
is unchanged. -/
theorem filter_sortByTotalDesc (q : ℚ) (l : List TrieNode) :
    (sortByTotalDesc l).filter (fun y => y.total_value = q) =
      l.filter (fun y => y.total_value = q) := by
  induction l with
  | nil => simp [sortByTotalDesc]
  | cons x xs ih =>
    rw [sortByTotalDesc, filter_insertByTotal]
    by_cases hxq : x.total_value = q <;> simp [List.filter_cons, hxq, ih]

theorem perm_sortByTotalDesc (l : List TrieNode) : (sortByTotalDesc l).Perm l := by
  induction l with
  | nil => simp [sortByTotalDesc]
  | cons x xs ih =>
    rw [sortByTotalDesc]
    have h1 : (insertByTotal x (sortByTotalDesc xs)).Perm (x :: sortByTotalDesc xs) := by
      clear ih
      induction sortByTotalDesc xs with
      | nil => simp [insertByTotal]
      | cons y ys ih2 =>
        by_cases hlt : x.total_value < y.total_value
        · rw [insertByTotal, if_pos hlt]
          exact (ih2.cons y).trans (List.Perm.swap x y ys)
        · rw [insertByTotal, if_neg hlt]
    exact h1.trans (ih.cons x)

/-! ## Linearization lemmas (levels and nesting) -/

theorem trie_to_nested_set_ne_nil (t : TrieNode) (lvl : ℕ) :
    trie_to_nested_set t lvl ≠ [] := by
  obtain ⟨n, sv, tv, cs⟩ := t
  rw [trie_to_nested_set_eq]
  simp

theorem trie_to_nested_set_head (t : TrieNode) (lvl : ℕ) :
    (trie_to_nested_set t lvl).head? =
      some ⟨lvl, t.name, t.total_value, t.self_value⟩ := by
  obtain ⟨n, sv, tv, cs⟩ := t
  rw [trie_to_nested_set_eq]
  simp [TrieNode.name, TrieNode.total_value, TrieNode.self_value]

theorem trie_to_nested_set_level_ge :
    ∀ (t : TrieNode) (lvl : ℕ) (r : Row), r ∈ trie_to_nested_set t lvl → lvl ≤ r.level := by
  have main : ∀ t, ∀ (lvl : ℕ) (r : Row), r ∈ trie_to_nested_set t lvl → lvl ≤ r.level := by
    apply TrieNode.strong_induction
    intro n sv tv cs ih lvl r hr
    rw [trie_to_nested_set_eq] at hr
    rcases List.mem_cons.mp hr with rfl | hr
    · exact le_refl _
    · rw [List.mem_flatMap] at hr
      obtain ⟨c, hc, hrc⟩ := hr
      have hmem : c ∈ cs := mem_sortByTotalDesc hc
      have := ih c hmem (lvl + 1) r hrc
      omega
  exact main

theorem head_flatMap_level (m : ℕ) :
    ∀ (cs : List TrieNode) (y : Row),
      y ∈ (cs.flatMap (fun c => trie_to_nested_set c m)).head? → y.level = m := by
  intro cs
  induction cs with
  | nil => simp
  | cons c cs ih =>
    intro y hy
    rw [List.flatMap_cons] at hy
    cases hblock : trie_to_nested_set c m with
    | nil => exact absurd hblock (trie_to_nested_set_ne_nil c m)
    | cons r rs =>
      rw [hblock] at hy
      simp only [List.cons_append, List.head?_cons, Option.mem_def, Option.some.injEq] at hy
      have hh := trie_to_nested_set_head c m
      rw [hblock] at hh
      simp only [List.head?_cons, Option.some.injEq] at hh
      subst hy
      rw [hh]

theorem chain_flatMap_level (m : ℕ) :
    ∀ (cs : List TrieNode),
      (∀ c ∈ cs, List.Chain' (fun a b => b.level ≤ a.level + 1) (trie_to_nested_set c m)) →
      List.Chain' (fun a b => b.level ≤ a.level + 1)
        (cs.flatMap (fun c => trie_to_nested_set c m)) := by
  intro cs
  induction cs with
  | nil => simp
  | cons c cs ih =>
    intro hblocks
    rw [List.flatMap_cons, List.chain'_append]
    refine ⟨hblocks c (by simp), ih (fun c' hc' => hblocks c' (by simp [hc'])), ?_⟩
    intro x hx y hy
    have hx' : x ∈ trie_to_nested_set c m := List.mem_of_mem_getLast? hx
    have h1 : m ≤ x.level := trie_to_nested_set_level_ge c m x hx'
    have h2 : y.level = m := head_flatMap_level m cs y hy
    omega

theorem trie_to_nested_set_chain :
    ∀ (t : TrieNode) (lvl : ℕ),
      List.Chain' (fun a b => b.level ≤ a.level + 1) (trie_to_nested_set t lvl) := by
  have main : ∀ t, ∀ (lvl : ℕ),
      List.Chain' (fun a b => b.level ≤ a.level + 1) (trie_to_nested_set t lvl) := by
    apply TrieNode.strong_induction
    intro n sv tv cs ih lvl
    rw [trie_to_nested_set_eq]
    rw [List.chain'_cons']
    constructor
    · intro y hy
      have h2 : y.level = lvl + 1 := head_flatMap_level (lvl + 1) (sortByTotalDesc cs) y hy
      show y.level ≤ lvl + 1
      omega
    · exact chain_flatMap_level (lvl + 1) (sortByTotalDesc cs)
        (fun c hc => ih c (mem_sortByTotalDesc hc) (lvl + 1))
  exact main

/-! ## Merging of identical stacks (C10 machinery) -/

theorem name_insertPath (fs : List (List Char)) (c : ℚ) (t : TrieNode) :
    (insertPath fs c t).name = t.name := by
  obtain ⟨n, sv, tv, cs⟩ := t
  cases fs <;> simp [insertPath, TrieNode.name]

theorem updateChild_updateChild (f : List Char) (u1 u2 u3 : TrieNode → TrieNode)
    (hname : ∀ t, (u1 t).name = t.name)
    (hcomp : ∀ t, u2 (u1 t) = u3 t) :
    ∀ cs : List TrieNode, updateChild f u2 (updateChild f u1 cs) = updateChild f u3 cs := by
  intro cs
  induction cs with
  | nil =>
    simp only [updateChild]
    rw [if_pos, hcomp]
    rw [hname]
    simp [TrieNode.name]
  | cons t ts ih =>
    simp only [updateChild]
    by_cases h : t.name = f
    · rw [if_pos h, if_pos h]
      simp only [updateChild]
      rw [if_pos (show (u1 t).name = f by rw [hname t]; exact h), hcomp]
    · rw [if_neg h, if_neg h]
      simp only [updateChild]
      rw [if_neg h, ih]

theorem insertPath_insertPath : ∀ (fs : List (List Char)) (c1 c2 : ℚ) (t : TrieNode),
    insertPath fs c2 (insertPath fs c1 t) = insertPath fs (c1 + c2) t := by
  intro fs
  induction fs with
  | nil =>
    intro c1 c2 t
    obtain ⟨n, sv, tv, cs⟩ := t
    simp only [insertPath, TrieNode.mk.injEq, and_true, true_and]
    ring
  | cons f fs ih =>
    intro c1 c2 t
    obtain ⟨n, sv, tv, cs⟩ := t
    simp only [insertPath, TrieNode.mk.injEq, true_and]
    exact updateChild_updateChild f (insertPath fs c1) (insertPath fs c2)
      (insertPath fs (c1 + c2)) (name_insertPath fs c1) (fun t => ih c1 c2 t) cs

/-! ## Skip conditions (C5 machinery) -/

theorem breakAtFirst_eq_none {c : Char} :
    ∀ l : List Char, breakAtFirst c l = none ↔ c ∉ l := by
  intro l
  induction l with
  | nil => simp [breakAtFirst]
  | cons x xs ih =>
    by_cases h : x = c
    · subst h
      simp [breakAtFirst]
    · rw [breakAtFirst, if_neg h, Option.map_eq_none', ih]
      simp only [List.mem_cons, not_or]
      constructor
      · intro hn
        exact ⟨fun hc => h hc.symm, hn⟩
      · intro hn
        exact hn.2

theorem rsplitSpace_eq_none (l : List Char) : rsplitSpace l = none ↔ ' ' ∉ l := by
  rw [rsplitSpace, Option.map_eq_none', breakAtFirst_eq_none, List.mem_reverse]

theorem parseCount_eq_none_iff (l : List Char) :
    parseCount l = none ↔ parseInt l = none ∧ parseFloat l = none := by
  rw [parseCount]
  cases h : parseInt l <;> simp [h]

/-- A line is skipped exactly under the conditions in `build_trie`'s loop:
nothing left after trimming, a leading `#`, no space to split at, or a
trailing token that parses neither as an integer nor as a float. -/
theorem parseValid_eq_none_iff (l : List Char) :
    parseValid l = none ↔
      pyStrip l = [] ∨ (pyStrip l).head? = some '#' ∨ ' ' ∉ pyStrip l ∨
        (∃ sp cp, rsplitSpace (pyStrip l) = some (sp, cp) ∧
          parseInt cp = none ∧ parseFloat cp = none) := by
  unfold parseValid
  by_cases h1 : pyStrip l = []
  · simp [h1]
  by_cases h2 : (pyStrip l).head? = some '#'
  · simp [h1, h2]
  cases hr : rsplitSpace (pyStrip l) with
  | none =>
    have hsp : ' ' ∉ pyStrip l := (rsplitSpace_eq_none _).mp hr
    simp [h1, h2, hr, hsp]
  | some p =>
    obtain ⟨sp, cp⟩ := p
    have hsp : ' ' ∈ pyStrip l := by
      by_contra hn
      rw [← rsplitSpace_eq_none] at hn
      rw [hn] at hr
      exact Option.noConfusion hr
    cases hc : parseCount cp with
    | none =>
      have hc2 := (parseCount_eq_none_iff cp).mp hc
      rw [if_neg h1, if_neg h2]
      simp only [hr, hc]
      constructor
      · intro _
        exact Or.inr (Or.inr (Or.inr ⟨sp, cp, rfl, hc2.1, hc2.2⟩))
      · intro _
        trivial
    | some c =>
      have hc2 : ¬(parseInt cp = none ∧ parseFloat cp = none) := by
        intro hcontra
        rw [(parseCount_eq_none_iff cp).mpr hcontra] at hc
        exact Option.noConfusion hc
      rw [if_neg h1, if_neg h2]
      simp only [hr, hc]
      constructor
      · intro hfalse
        exact Option.noConfusion hfalse
      · rintro (hf | hf | hf | ⟨sp', cp', heq, hint, hfloat⟩)
        · exact absurd hf h1
        · exact absurd hf h2
        · exact absurd hsp hf
        · simp only [Option.some.injEq, Prod.mk.injEq] at heq
          obtain ⟨rfl, rfl⟩ := heq
          exact absurd ⟨hint, hfloat⟩ hc2

theorem build_trie_skip_middle {l : List Char} (h : parseValid l = none)
    (ls1 ls2 : List (List Char)) (sep : Char) :
    build_trie (ls1 ++ l :: ls2) sep = build_trie (ls1 ++ ls2) sep := by
  unfold build_trie
  rw [List.foldl_append, List.foldl_append, List.foldl_cons]
  generalize List.foldl build_trie_step (rootInit, sep) ls1 = p
  obtain ⟨t, s⟩ := p
  rw [build_trie_step_skip h]

/-! ## Separator threading (C1 machinery) -/

/-- Follows the spec's words (§4.1, §9): the adaptive separator policy applied
per line — each line's effective separator is computed from that line's own
stack part and the *configured* separator, never carried over from an earlier
line's detection.  For comparison with `build_trie`. -/
def build_trie_perLineSep (folded_lines : List (List Char)) (separator : Char) : TrieNode :=
  folded_lines.foldl
    (fun root rawLine =>
      match parseValid rawLine with
      | none => root
      | some (sp, c) => insertPath (framesOf (effSep sp separator) sp) c root)
    rootInit

/-- The tree after processing `ls ++ [l]` is the tree after `ls`, updated by
one loop iteration run with the threaded separator `sepAfter ls sep` — i.e.
earlier lines influence how `l` is split exactly through `sepAfter`. -/
theorem build_trie_append_one (ls : List (List Char)) (l : List Char) (sep : Char) :
    build_trie (ls ++ [l]) sep =
      (build_trie_step (build_trie ls sep, sepAfter ls sep) l).1 := by
  unfold build_trie
  rw [List.foldl_append, List.foldl_cons, List.foldl_nil]
  rw [foldl_step_sep ls rootInit sep]

theorem effSep_idem (sp : List Char) (s : Char) :
    effSep sp (effSep sp s) = effSep sp s := by
  unfold effSep
  by_cases h : '/' ∈ sp ∧ ';' ∉ sp <;> simp [h]

theorem name_calculate_totals (t : TrieNode) :
    (calculate_totals t).name = t.name := by
  obtain ⟨n, sv, tv, cs⟩ := t
  rw [calculate_totals_eq]
  simp [TrieNode.name]

theorem name_foldl_step (lines : List (List Char)) :
    ∀ (t : TrieNode) (s : Char),
      ((lines.foldl build_trie_step (t, s)).1).name = t.name := by
  induction lines with
  | nil => intro t s; simp
  | cons l ls ih =>
    intro t s
    rw [List.foldl_cons]
    cases h : parseValid l with
    | none => rw [build_trie_step_skip h, ih]
    | some p =>
      obtain ⟨sp, c⟩ := p
      rw [build_trie_step_insert h, ih, name_insertPath]

theorem name_build_trie (lines : List (List Char)) (sep : Char) :
    (build_trie lines sep).name = "total".toList := by
  rw [build_trie, name_foldl_step]
  rfl

/-! ## Claim theorems -/

/-- C1 (counterexample): the claim is false — a `'/'` detection on an earlier
line does change how a later line is split, because the `separator` variable
persists across loop iterations.  On input `["x/y 1", "a;b 2"]` with the
default separator `;`, the first line switches the separator to `'/'`, so the
second line is split on `'/'` and produces a single frame `"a;b"` instead of
the frames `a`, `b` that per-line-independent detection would produce. -/
theorem C1_sep_counterexample :
    build_trie [['x','/','y',' ','1'], ['a',';','b',' ','2']] ';' ≠
      build_trie_perLineSep [['x','/','y',' ','1'], ['a',';','b',' ','2']] ';' := by
  have h1 : build_trie [['x','/','y',' ','1'], ['a',';','b',' ','2']] ';' =
      TrieNode.mk "total".toList 0 0
        [TrieNode.mk ['x'] 0 0 [TrieNode.mk ['y'] 1 0 []],
         TrieNode.mk ['a',';','b'] 2 0 []] := by
    simp [build_trie, build_trie_step, rootInit, pyStrip, rsplitSpace, breakAtFirst,
      parseCount, parseInt, parseSign, digitsVal, splitSep, insertPath, updateChild,
      TrieNode.name]
  have h2 : build_trie_perLineSep [['x','/','y',' ','1'], ['a',';','b',' ','2']] ';' =
      TrieNode.mk "total".toList 0 0
        [TrieNode.mk ['x'] 0 0 [TrieNode.mk ['y'] 1 0 []],
         TrieNode.mk ['a'] 0 0 [TrieNode.mk ['b'] 2 0 []]] := by
    simp [build_trie_perLineSep, parseValid, effSep, framesOf, rootInit, pyStrip,
      rsplitSpace, breakAtFirst, parseCount, parseInt, parseSign, digitsVal, splitSep,
      insertPath, updateChild, TrieNode.name]
  rw [h1, h2]
  intro heq
  simp at heq

/-- C1 (amended): the effective separator of a line is not computed from that
line alone — it is threaded.  The tree after `ls ++ [l]` is the tree after
`ls`, updated by one loop iteration run with the threaded separator
`sepAfter ls sep`, and the threaded separator after any list of lines is
`sepAfter`, a pure function of the configured separator and the line
contents (it becomes `'/'` when a successfully parsed line's stack part
contains `'/'` and no `';'`, and persists). -/
theorem C1_separator_threading :
    (∀ (ls : List (List Char)) (l : List Char) (sep : Char),
      build_trie (ls ++ [l]) sep =
        (build_trie_step (build_trie ls sep, sepAfter ls sep) l).1) ∧
    (∀ (lines : List (List Char)) (sep : Char),
      (lines.foldl build_trie_step (rootInit, sep)).2 = sepAfter lines sep) := by
  refine ⟨build_trie_append_one, ?_⟩
  intro lines sep
  rw [foldl_step_sep lines rootInit sep]

/-- C2: after `calculate_totals`, every node of the result satisfies
`total_value = self_value + Σ children.total_value` (checked recursively by
`conservedB`), in particular for the tree built from any input; and a leaf's
total equals its self count. -/
theorem C2_conservation :
    (∀ t : TrieNode, conservedB (calculate_totals t) = true) ∧
    (∀ (lines : List (List Char)) (sep : Char),
      conservedB (calculate_totals (build_trie lines sep)) = true) ∧
    (∀ (n : List Char) (sv tv : ℚ),
      calculate_totals (TrieNode.mk n sv tv []) = TrieNode.mk n sv sv []) := by
  refine ⟨conservedB_calculate_totals,
    fun lines sep => conservedB_calculate_totals _, ?_⟩
  intro n sv tv
  rw [calculate_totals_eq]
  simp

/-- C3: the root's total after aggregation is the sum of the parsed counts of
all non-skipped lines (`countOf` is the parsed count, 0 for skipped lines);
and a valid line whose stack part yields no frames after filtering adds its
count to the root's own `self_value`. -/
theorem C3_root_completeness :
    (∀ (lines : List (List Char)) (sep : Char),
      (calculate_totals (build_trie lines sep)).total_value =
        (lines.map countOf).sum) ∧
    (∀ (t : TrieNode) (s : Char) (l sp : List Char) (c : ℚ),
      parseValid l = some (sp, c) → framesOf (effSep sp s) sp = [] →
        (build_trie_step (t, s) l).1 =
          TrieNode.mk t.name (t.self_value + c) t.total_value t.children) := by
  refine ⟨root_total_eq_sum, ?_⟩
  intro t s l sp c h hf
  rw [build_trie_step_insert h t s]
  show insertPath (framesOf (effSep sp s) sp) c t = _
  rw [hf]
  obtain ⟨n, sv, tv, cs⟩ := t
  simp [insertPath, TrieNode.name, TrieNode.self_value, TrieNode.total_value,
    TrieNode.children]

theorem C3_root_completeness_witness :
    parseValid [';', ' ', '5'] = some ([';'], 5) ∧
    framesOf (effSep [';'] ';') [';'] = [] ∧
    (build_trie_step (rootInit, ';') [';', ' ', '5']).1 =
      TrieNode.mk rootInit.name (rootInit.self_value + 5) rootInit.total_value
        rootInit.children := by
  have h1 : parseValid [';', ' ', '5'] = some ([';'], 5) := by
    simp [parseValid, pyStrip, rsplitSpace, breakAtFirst, parseCount, parseInt,
      parseSign, digitsVal]
  have h2 : framesOf (effSep [';'] ';') [';'] = [] := by
    simp [framesOf, effSep, splitSep]
  exact ⟨h1, h2, C3_root_completeness.2 rootInit ';' [';', ' ', '5'] [';'] 5 h1 h2⟩

/-- C4: in the linearized output of any node, the node's row is followed by
its children's row blocks in `sortByTotalDesc` order; that order is
non-increasing in `total_value`, is a permutation of the children, and
preserves the relative (first-creation) order of equal-total children. -/
theorem C4_sibling_order :
    ∀ (t : TrieNode) (level : ℕ),
      trie_to_nested_set t level =
        ⟨level, t.name, t.total_value, t.self_value⟩ ::
          (sortByTotalDesc t.children).flatMap
            (fun c => trie_to_nested_set c (level + 1)) ∧
      (sortByTotalDesc t.children).Pairwise
        (fun a b => b.total_value ≤ a.total_value) ∧
      (∀ q : ℚ, (sortByTotalDesc t.children).filter (fun y => y.total_value = q) =
        t.children.filter (fun y => y.total_value = q)) ∧
      (sortByTotalDesc t.children).Perm t.children := by
  intro t level
  obtain ⟨n, sv, tv, cs⟩ := t
  exact ⟨trie_to_nested_set_eq n sv tv cs level, pairwise_sortByTotalDesc cs,
    fun q => filter_sortByTotalDesc q cs, perm_sortByTotalDesc cs⟩

/-- C5: one loop iteration skips a line (`parseValid` is `none`) exactly when
the trimmed line is empty, begins with `#`, contains no space, or its trailing
token parses neither as an integer nor as a float; a skipped line leaves the
(tree, separator) state unchanged, and removing it from anywhere in the input
leaves the built tree unchanged. -/
theorem C5_skip_conditions :
    ∀ l : List Char,
      (parseValid l = none ↔
        pyStrip l = [] ∨ (pyStrip l).head? = some '#' ∨ ' ' ∉ pyStrip l ∨
          (∃ sp cp, rsplitSpace (pyStrip l) = some (sp, cp) ∧
            parseInt cp = none ∧ parseFloat cp = none)) ∧
      (∀ (t : TrieNode) (s : Char),
        parseValid l = none → build_trie_step (t, s) l = (t, s)) ∧
      (∀ (ls1 ls2 : List (List Char)) (sep : Char),
        parseValid l = none →
          build_trie (ls1 ++ l :: ls2) sep = build_trie (ls1 ++ ls2) sep) := by
  intro l
  exact ⟨parseValid_eq_none_iff l,
    fun t s h => build_trie_step_skip h t s,
    fun ls1 ls2 sep h => build_trie_skip_middle h ls1 ls2 sep⟩

theorem C5_skip_conditions_witness :
    parseValid ['#', ' ', 'c'] = none ∧
    build_trie_step (rootInit, ';') ['#', ' ', 'c'] = (rootInit, ';') ∧
    build_trie ([['a', ' ', '1']] ++ ['#', ' ', 'c'] :: [['b', ' ', '2']]) ';' =
      build_trie ([['a', ' ', '1']] ++ [['b', ' ', '2']]) ';' := by
  have h : parseValid ['#', ' ', 'c'] = none := by
    simp [parseValid, pyStrip]
  exact ⟨h, (C5_skip_conditions ['#', ' ', 'c']).2.1 rootInit ';' h,
    (C5_skip_conditions ['#', ' ', 'c']).2.2 [['a', ' ', '1']] [['b', ' ', '2']] ';' h⟩

/-- C6: aggregation of the empty input produces exactly one row
`{level 0, label "total", value 0, self 0}`, and the synthetic root exists
with zero counts and no children. -/
theorem C6_empty_input :
    convert_folded_to_grafana [] ';' =
      [{ level := 0, label := "total".toList, value := 0, self := 0 }] ∧
    calculate_totals (build_trie [] ';') = TrieNode.mk "total".toList 0 0 [] := by
  have h1 : build_trie [] ';' = rootInit := by
    rw [build_trie]
    rfl
  have h2 : calculate_totals rootInit = TrieNode.mk "total".toList 0 0 [] := by
    rw [rootInit, calculate_totals_eq]
    norm_num
  constructor
  · rw [convert_folded_to_grafana, h1, h2, trie_to_nested_set_eq]
    norm_num [sortByTotalDesc]
  · rw [h1, h2]

/-- C7: scenario 1 — input `["a;b;c 5", "a;b;d 3", "a;e 2"]` with separator
`;` yields exactly the rows total:0:10, a:1:10, b:2:8, c:3:5, d:3:3, e:2:2
with self counts 0, 0, 0, 5, 3, 2. -/
theorem C7_scenario1 :
    convert_folded_to_grafana
      [['a',';','b',';','c',' ','5'], ['a',';','b',';','d',' ','3'],
       ['a',';','e',' ','2']] ';' =
      [⟨0, "total".toList, 10, 0⟩, ⟨1, ['a'], 10, 0⟩, ⟨2, ['b'], 8, 0⟩,
       ⟨3, ['c'], 5, 5⟩, ⟨3, ['d'], 3, 3⟩, ⟨2, ['e'], 2, 2⟩] := by
  have h1 : build_trie
      [['a',';','b',';','c',' ','5'], ['a',';','b',';','d',' ','3'],
       ['a',';','e',' ','2']] ';' =
      TrieNode.mk "total".toList 0 0
        [TrieNode.mk ['a'] 0 0
          [TrieNode.mk ['b'] 0 0 [TrieNode.mk ['c'] 5 0 [], TrieNode.mk ['d'] 3 0 []],
           TrieNode.mk ['e'] 2 0 []]] := by
    simp [build_trie, build_trie_step, rootInit, pyStrip, rsplitSpace, breakAtFirst,
      parseCount, parseInt, parseSign, digitsVal, splitSep, insertPath, updateChild,
      TrieNode.name]
  have h2 : calculate_totals (TrieNode.mk "total".toList 0 0
        [TrieNode.mk ['a'] 0 0
          [TrieNode.mk ['b'] 0 0 [TrieNode.mk ['c'] 5 0 [], TrieNode.mk ['d'] 3 0 []],
           TrieNode.mk ['e'] 2 0 []]]) =
      TrieNode.mk "total".toList 0 10
        [TrieNode.mk ['a'] 0 10
          [TrieNode.mk ['b'] 0 8 [TrieNode.mk ['c'] 5 5 [], TrieNode.mk ['d'] 3 3 []],
           TrieNode.mk ['e'] 2 2 []]] := by
    norm_num [calculate_totals_eq, TrieNode.total_value]
  rw [convert_folded_to_grafana, h1, h2]
  norm_num [trie_to_nested_set_eq, sortByTotalDesc, insertByTotal, TrieNode.total_value]

/-- C8: rows carry consistent levels — the first row of any node's
linearization is that node at the given level, every emitted level is at least
the starting level, consecutive rows never deepen by more than one level, a
node's children's rows are emitted at its level plus one, and the pipeline's
first row is the root labelled "total" at level 0. -/
theorem C8_level_consistency :
    (∀ (t : TrieNode) (lvl : ℕ),
      (trie_to_nested_set t lvl).head? =
        some ⟨lvl, t.name, t.total_value, t.self_value⟩ ∧
      (∀ r ∈ trie_to_nested_set t lvl, lvl ≤ r.level) ∧
      List.Chain' (fun a b => b.level ≤ a.level + 1) (trie_to_nested_set t lvl) ∧
      trie_to_nested_set t lvl =
        ⟨lvl, t.name, t.total_value, t.self_value⟩ ::
          (sortByTotalDesc t.children).flatMap
            (fun c => trie_to_nested_set c (lvl + 1))) ∧
    (∀ (lines : List (List Char)) (sep : Char),
      (convert_folded_to_grafana lines sep).head? =
        some ⟨0, "total".toList,
          (calculate_totals (build_trie lines sep)).total_value,
          (calculate_totals (build_trie lines sep)).self_value⟩) := by
  constructor
  · intro t lvl
    refine ⟨trie_to_nested_set_head t lvl, trie_to_nested_set_level_ge t lvl,
      trie_to_nested_set_chain t lvl, ?_⟩
    obtain ⟨n, sv, tv, cs⟩ := t
    exact trie_to_nested_set_eq n sv tv cs lvl
  · intro lines sep
    rw [convert_folded_to_grafana, trie_to_nested_set_head]
    rw [name_calculate_totals, name_build_trie]

/-- C9: counts are not validated to be non-negative — a line whose trailing
token parses as a negative number is inserted exactly like any other valid
line, decreasing the tree's total self weight by the (negative) count; on
input `["a;b -5"]` the output rows carry value and self −5. -/
theorem C9_negative_counts :
    (∀ (t : TrieNode) (s : Char) (l sp : List Char) (c : ℚ),
      parseValid l = some (sp, c) → c < 0 →
        build_trie_step (t, s) l =
          (insertPath (framesOf (effSep sp s) sp) c t, effSep sp s) ∧
        selfSum (build_trie_step (t, s) l).1 = selfSum t + c) ∧
    convert_folded_to_grafana [['a',';','b',' ','-','5']] ';' =
      [⟨0, "total".toList, -5, 0⟩, ⟨1, ['a'], -5, 0⟩, ⟨2, ['b'], -5, -5⟩] := by
  constructor
  · intro t s l sp c h _
    refine ⟨build_trie_step_insert h t s, ?_⟩
    rw [build_trie_step_insert h t s]
    exact selfSum_insertPath _ c t
  · have h1 : build_trie [['a',';','b',' ','-','5']] ';' =
        TrieNode.mk "total".toList 0 0
          [TrieNode.mk ['a'] 0 0 [TrieNode.mk ['b'] (-5) 0 []]] := by
      simp [build_trie, build_trie_step, rootInit, pyStrip, rsplitSpace, breakAtFirst,
        parseCount, parseInt, parseSign, digitsVal, splitSep, insertPath, updateChild,
        TrieNode.name]
    have h2 : calculate_totals (TrieNode.mk "total".toList 0 0
          [TrieNode.mk ['a'] 0 0 [TrieNode.mk ['b'] (-5) 0 []]]) =
        TrieNode.mk "total".toList 0 (-5)
          [TrieNode.mk ['a'] 0 (-5) [TrieNode.mk ['b'] (-5) (-5) []]] := by
      norm_num [calculate_totals_eq, TrieNode.total_value]
    rw [convert_folded_to_grafana, h1, h2]
    norm_num [trie_to_nested_set_eq, sortByTotalDesc, insertByTotal, TrieNode.total_value]

theorem C9_negative_counts_witness :
    parseValid ['a',';','b',' ','-','5'] = some (['a',';','b'], -5) ∧
    (-5 : ℚ) < 0 ∧
    build_trie_step (rootInit, ';') ['a',';','b',' ','-','5'] =
      (insertPath (framesOf (effSep ['a',';','b'] ';') ['a',';','b']) (-5) rootInit,
        effSep ['a',';','b'] ';') ∧
    selfSum (build_trie_step (rootInit, ';') ['a',';','b',' ','-','5']).1 =
      selfSum rootInit + (-5) := by
  have h1 : parseValid ['a',';','b',' ','-','5'] = some (['a',';','b'], -5) := by
    simp [parseValid, pyStrip, rsplitSpace, breakAtFirst, parseCount, parseInt,
      parseSign, digitsVal]
  have h2 : (-5 : ℚ) < 0 := by norm_num
  obtain ⟨ha, hb⟩ :=
    C9_negative_counts.1 rootInit ';' ['a',';','b',' ','-','5'] ['a',';','b'] (-5) h1 h2
  exact ⟨h1, h2, ha, hb⟩

/-- C10: inserting two valid lines with the same stack part and counts c1, c2
produces exactly the same tree as a single insertion with count c1 + c2 —
duplicate stacks merge into one path with summed self counts (and the
separator state ends up the same). -/
theorem C10_duplicate_stacks :
    (∀ (fs : List (List Char)) (c1 c2 : ℚ) (t : TrieNode),
      insertPath fs c2 (insertPath fs c1 t) = insertPath fs (c1 + c2) t) ∧
    (∀ (t : TrieNode) (s : Char) (l1 l2 sp : List Char) (c1 c2 : ℚ),
      parseValid l1 = some (sp, c1) → parseValid l2 = some (sp, c2) →
        build_trie_step (build_trie_step (t, s) l1) l2 =
          (insertPath (framesOf (effSep sp s) sp) (c1 + c2) t, effSep sp s)) := by
  refine ⟨insertPath_insertPath, ?_⟩
  intro t s l1 l2 sp c1 c2 h1 h2
  rw [build_trie_step_insert h1 t s]
  rw [build_trie_step_insert h2 (insertPath (framesOf (effSep sp s) sp) c1 t) (effSep sp s)]
  rw [effSep_idem]
  rw [insertPath_insertPath]

theorem C10_duplicate_stacks_witness :
    parseValid ['a',';','b',' ','2'] = some (['a',';','b'], 2) ∧
    parseValid ['a',';','b',' ','3'] = some (['a',';','b'], 3) ∧
    build_trie_step (build_trie_step (rootInit, ';') ['a',';','b',' ','2'])
        ['a',';','b',' ','3'] =
      (insertPath (framesOf (effSep ['a',';','b'] ';') ['a',';','b']) (2 + 3) rootInit,
        effSep ['a',';','b'] ';') := by
  have h1 : parseValid ['a',';','b',' ','2'] = some (['a',';','b'], 2) := by
    simp [parseValid, pyStrip, rsplitSpace, breakAtFirst, parseCount, parseInt,
      parseSign, digitsVal]
  have h2 : parseValid ['a',';','b',' ','3'] = some (['a',';','b'], 3) := by
    simp [parseValid, pyStrip, rsplitSpace, breakAtFirst, parseCount, parseInt,
      parseSign, digitsVal]
  exact ⟨h1, h2,
    C10_duplicate_stacks.2 rootInit ';' ['a',';','b',' ','2'] ['a',';','b',' ','3']
      ['a',';','b'] 2 3 h1 h2⟩
